import Mathlib

/-!
Shallow embedding of the Active911 connection pool
(`src/ConnectionPool.h`, `namespace active911`, `template<class T> class
ConnectionPool`).

Modelling conventions:

* A connection handle (`boost::shared_ptr<Connection>`) is identified by the
  address of its target; we model handles as natural numbers.
* `std::deque<shared_ptr<Connection>> pool` (the free collection) is a
  `List Handle`, front = head: `pool.front()/pop_front()` is head/tail,
  `push_back` is append.
* `std::set<shared_ptr<Connection>> borrowed` is a strictly sorted
  `List Handle`; `std::set` iterates in increasing key order, so the
  iteration order of `borrowed.begin()..end()` is the order of this list.
  `insert` is `insertSorted` (no duplicates, like `std::set::insert`),
  `erase` is `List.erase`.
* The external world is an `Env`: the virtual calls `isValid()` and
  `reconnect()` on a handle, `shared_ptr::unique()` on a borrowed entry
  (true iff only the pool's bookkeeping reference remains, i.e. the lease
  was abandoned), and `factory->create()` as a stream of results indexed by
  the call count (`none` models a thrown creation exception).
* `gettimeofday` reads come from a clock oracle `Nat → Nat × Nat` giving the
  `(tv_sec, tv_usec)` pair of the k-th read made by this `borrow` call.
  `pthread_cond_timedwait` itself reads no time in the model; the loop
  records how many timed waits it performed.
* The borrow do-while loop is given fuel (a bound on loop iterations);
  running out of fuel yields the distinguished result `outOfFuel`, which the
  real code cannot produce (it would keep looping).
* Ghost instrumentation: `createCalls` counts calls made to
  `factory->create()`, `signals` counts `pthread_cond_signal` calls.
-/

namespace ConnectionPool

/-- A connection handle: the identity of a `shared_ptr<Connection>` target. -/
abbrev Handle := Nat

/-- External behaviour: the `Connection` virtual methods, `shared_ptr`
reference counting as observed via `unique()`, and the factory's `create`
results (indexed by call count; `none` = `create` throws). -/
structure Env where
  isValid : Handle → Bool
  reconnect : Handle → Bool
  unique : Handle → Bool
  create : Nat → Option Handle

/-- The pool state: the members of `ConnectionPool<T>` that the operations
read and write (`pool`, `borrowed`, `pool_size`, `timeout_sec`), plus ghost
counters for factory calls and condition-variable signals. -/
structure PoolState where
  pool : List Handle
  borrowed : List Handle
  pool_size : Nat
  timeout_sec : Nat
  createCalls : Nat
  signals : Nat
deriving DecidableEq, Repr

/-- `std::set::insert` on the strictly-sorted model of `borrowed`: insert in
order, no duplicate when the element is already present. -/
def insertSorted (x : Handle) : List Handle → List Handle
  | [] => [x]
  | y :: ys =>
    if x < y then x :: y :: ys
    else if x = y then y :: ys
    else y :: insertSorted x ys

/-- `stats` structure `ConnectionPoolStats` of the source: `pool_size`,
`borrowed_size`, `retry_cnt`, `timeout_sec`. -/
structure ConnectionPoolStats where
  pool_size : Nat
  borrowed_size : Nat
  retry_cnt : Int
  timeout_sec : Nat
deriving DecidableEq, Repr

/-- `ConnectionPool::get_stats`: under the lock, copy `pool.size()`,
`borrowed.size()` and `timeout_sec` into a fresh stack `ConnectionPoolStats`.
The source never assigns `retry_cnt`; the model makes the indeterminate
stack garbage explicit as the extra argument, which is returned unchanged. -/
def get_stats (s : PoolState) (uninitialized_retry_cnt : Int) :
    ConnectionPoolStats :=
  { pool_size := s.pool.length
    borrowed_size := s.borrowed.length
    retry_cnt := uninitialized_retry_cnt
    timeout_sec := s.timeout_sec }

/-- The construction fill loop
`while(pool.size() < pool_size) pool.push_back(factory->create());`,
starting at factory-call index `k` with `n` connections still to create.
Returns the created list and the final call index, or `none` when a
`create` call throws (the exception propagates out of the constructor). -/
def fillPool (create : Nat → Option Handle) : Nat → Nat → Option (List Handle × Nat)
  | k, 0 => some ([], k)
  | k, n + 1 =>
    match create k with
    | none => none
    | some c =>
      match fillPool create (k + 1) n with
      | none => none
      | some (l, k2) => some (c :: l, k2)

/-- `ConnectionPool::ConnectionPool(pool_size, factory, timeout_sec)`:
eagerly fill `pool` with `pool_size` freshly created connections; a creation
failure aborts construction (no partial pool object). `borrowed` starts
empty. -/
def construct (env : Env) (pool_size timeout_sec : Nat) : Option PoolState :=
  match fillPool env.create 0 pool_size with
  | none => none
  | some (l, k) =>
    some { pool := l, borrowed := [], pool_size := pool_size
           timeout_sec := timeout_sec, createCalls := k, signals := 0 }

/-- `ConnectionPool::unborrow(conn)`: under the lock, `pool.push_back(conn)`,
then `borrowed.erase(conn)`, then `pthread_cond_signal(&timelock_cond)`.
No validation of the argument is performed. -/
def unborrow (s : PoolState) (conn : Handle) : PoolState :=
  { s with pool := s.pool ++ [conn]
           borrowed := s.borrowed.erase conn
           signals := s.signals + 1 }

/-- A `(tv_sec, tv_usec)` pair as microseconds: `tv_sec*1000000 + tv_usec`,
the quantity the source computes for `now_usec`. -/
def usecOf (t : Nat × Nat) : Nat := t.1 * 1000000 + t.2

/-- The absolute deadline `lock_usec` computed at the top of `borrow`:
`ts.tv_sec = now.tv_sec + timeout_sec` and then
`lock_usec = ts.tv_sec*1000000 + now.tv_usec`. -/
def deadlineUsec (now : Nat × Nat) (timeout_sec : Nat) : Nat :=
  (now.1 + timeout_sec) * 1000000 + now.2

/-- Result of the scan of `borrowed` for an abandoned (`unique()`) entry that
runs when `pool` is empty: either a replacement connection is created and
returned, or the scan falls through to the timed-wait step. -/
inductive ScanResult where
  | found (c : Handle) (s : PoolState)
  | fallthrough (s : PoolState)
deriving DecidableEq, Repr

/-- The `for(it=borrowed.begin(); ...)` scan inside `borrow` when `pool` is
empty: find the first entry (in `std::set` iteration order) whose `unique()`
is true; for it, try `factory->create()`. On success, erase the abandoned
entry, insert the replacement into `borrowed`, and return the replacement.
On a creation exception, `break` out of the scan (fall through to the wait).
Entries that are not `unique()` are skipped. -/
def scanAbandoned (env : Env) (s : PoolState) : ScanResult :=
  match s.borrowed.find? env.unique with
  | none => .fallthrough s
  | some a =>
    match env.create s.createCalls with
    | some c =>
      .found c { s with borrowed := insertSorted c (s.borrowed.erase a)
                        createCalls := s.createCalls + 1 }
    | none => .fallthrough { s with createCalls := s.createCalls + 1 }

/-- Outcome tag of a whole `borrow` call: a connection is returned,
`ConnectionUnavailable` is thrown, or the model's fuel ran out (the real
loop would continue). -/
inductive BorrowRes where
  | conn (c : Handle)
  | unavailable
  | outOfFuel
deriving DecidableEq, Repr

/-- Result of a whole `borrow` call: outcome, final pool state, and the
number of `pthread_cond_timedwait` calls performed. -/
structure BorrowOut where
  res : BorrowRes
  state : PoolState
  waits : Nat
deriving DecidableEq, Repr

/-- One iteration of the borrow do-while body: either the iteration exits
the function (`done`, with the outcome and whether it performed a timed
wait), or the loop condition `lock_usec > now_usec` held and the body runs
again (`again`). -/
inductive IterOut where
  | done (r : BorrowRes) (s : PoolState) (waited : Bool)
  | again (s : PoolState) (waited : Bool)
deriving DecidableEq, Repr

/-- The body of `borrow`'s do-while loop, with `k` the index of the next
`gettimeofday` read. If `pool` is empty: run the abandonment scan; if it
returns a connection, done; otherwise read the clock, timed-wait if the
deadline has not passed, read the clock again for the loop condition, and
either go around or exit the loop (after which `borrow` throws). If `pool`
is non-empty: pop the front connection; if `isValid()` fails and
`reconnect()` fails, throw `ConnectionUnavailable` (the popped connection is
in neither collection); otherwise insert it into `borrowed` and return it. -/
def borrowIter (env : Env) (clock : Nat → Nat × Nat) (lock_usec : Nat)
    (k : Nat) (s : PoolState) : IterOut :=
  match s.pool with
  | [] =>
    match scanAbandoned env s with
    | .found c s1 => .done (.conn c) s1 false
    | .fallthrough s1 =>
      let waited := decide (usecOf (clock k) < lock_usec)
      if usecOf (clock (k + 1)) < lock_usec then .again s1 waited
      else .done .unavailable s1 waited
  | conn :: rest =>
    if env.isValid conn then
      .done (.conn conn)
        { s with pool := rest, borrowed := insertSorted conn s.borrowed } false
    else if env.reconnect conn then
      .done (.conn conn)
        { s with pool := rest, borrowed := insertSorted conn s.borrowed } false
    else
      .done .unavailable { s with pool := rest } false

/-- The borrow do-while loop: run iterations until one exits the function or
the fuel is exhausted, accumulating the timed-wait count. Each `again`
iteration consumed two clock reads. -/
def borrowLoop (env : Env) (clock : Nat → Nat × Nat) (lock_usec : Nat) :
    Nat → Nat → Nat → PoolState → BorrowOut
  | 0, _, w, s => ⟨.outOfFuel, s, w⟩
  | fuel + 1, k, w, s =>
    match borrowIter env clock lock_usec k s with
    | .done r s1 waited => ⟨r, s1, w + (if waited then 1 else 0)⟩
    | .again s1 waited =>
      borrowLoop env clock lock_usec fuel (k + 2) (w + (if waited then 1 else 0)) s1

/-- `ConnectionPool::borrow()`: read `gettimeofday` once (read 0), compute
the absolute deadline `lock_usec`, then run the do-while loop (whose reads
start at index 1). Falling out of the loop throws `ConnectionUnavailable`,
which `borrowLoop` already encodes as `.unavailable`. -/
def borrow (env : Env) (clock : Nat → Nat × Nat) (fuel : Nat)
    (s : PoolState) : BorrowOut :=
  borrowLoop env clock (deadlineUsec (clock 0) s.timeout_sec) fuel 1 0 s

/-- The pool state carried by a scan result. -/
def ScanResult.state : ScanResult → PoolState
  | .found _ s => s
  | .fallthrough s => s

/-- The pool state carried by a loop-iteration outcome. -/
def IterOut.state : IterOut → PoolState
  | .done _ s _ => s
  | .again s _ => s

theorem mem_insertSorted {a x : Handle} : ∀ {l : List Handle},
    a ∈ insertSorted x l ↔ a = x ∨ a ∈ l := by
  intro l
  induction l with
  | nil => simp [insertSorted]
  | cons y ys ih =>
    by_cases h1 : x < y
    · simp only [insertSorted, if_pos h1, List.mem_cons]
    · by_cases h2 : x = y
      · subst h2
        simp only [insertSorted, if_neg h1, eq_self_iff_true, if_true, List.mem_cons]
        tauto
      · simp only [insertSorted, if_neg h1, if_neg h2, List.mem_cons, ih]
        tauto

theorem length_insertSorted_of_not_mem {x : Handle} : ∀ {l : List Handle},
    x ∉ l → (insertSorted x l).length = l.length + 1 := by
  intro l
  induction l with
  | nil => intro _; rfl
  | cons y ys ih =>
    intro hx
    by_cases h1 : x < y
    · simp [insertSorted, if_pos h1]
    · by_cases h2 : x = y
      · exact absurd (h2 ▸ List.mem_cons_self y ys) hx
      · have hys : x ∉ ys := fun h => hx (List.mem_cons_of_mem _ h)
        simp [insertSorted, if_neg h1, if_neg h2, ih hys]

theorem pairwise_insertSorted {x : Handle} : ∀ {l : List Handle},
    l.Pairwise (· < ·) → (insertSorted x l).Pairwise (· < ·) := by
  intro l
  induction l with
  | nil => intro _; simp [insertSorted]
  | cons y ys ih =>
    intro hp
    rw [List.pairwise_cons] at hp
    obtain ⟨hy, hys⟩ := hp
    by_cases h1 : x < y
    · simp only [insertSorted, if_pos h1]
      rw [List.pairwise_cons]
      refine ⟨?_, ?_⟩
      · intro b hb
        rcases List.mem_cons.mp hb with rfl | hb2
        · exact h1
        · exact lt_trans h1 (hy b hb2)
      · rw [List.pairwise_cons]
        exact ⟨hy, hys⟩
    · by_cases h2 : x = y
      · simp only [insertSorted, if_neg h1, if_pos h2]
        rw [List.pairwise_cons]
        exact ⟨hy, hys⟩
      · have hyx : y < x := lt_of_le_of_ne (Nat.not_lt.mp h1) (fun h => h2 h.symm)
        simp only [insertSorted, if_neg h1, if_neg h2]
        rw [List.pairwise_cons]
        refine ⟨?_, ih hys⟩
        intro b hb
        rcases mem_insertSorted.mp hb with rfl | hb2
        · exact hyx
        · exact hy b hb2

/-- The bookkeeping invariant of the pool: `pool` and `borrowed` are
disjoint, `pool` has no duplicate handles, `borrowed` is a strictly sorted
(duplicate-free) set, and the live-connection count is bounded by the
configured capacity. -/
def Inv (s : PoolState) : Prop :=
  (∀ x ∈ s.pool, x ∉ s.borrowed) ∧
  s.pool.Nodup ∧
  s.borrowed.Pairwise (· < ·) ∧
  s.pool.length + s.borrowed.length ≤ s.pool_size

/-- Physical freshness of factory results, as `operator new` guarantees for
`shared_ptr` targets: every connection produced by a factory call that has
not yet happened is distinct from every handle currently in the pool's
collections, and distinct calls produce distinct connections. -/
def FreshFactory (env : Env) (s : PoolState) : Prop :=
  (∀ k c, s.createCalls ≤ k → env.create k = some c →
     c ∉ s.pool ∧ c ∉ s.borrowed) ∧
  (∀ j k c c2, env.create j = some c → env.create k = some c2 → j ≠ k →
     c ≠ c2)

theorem scanAbandoned_inv {env : Env} {s : PoolState}
    (hinv : Inv s) (hf : FreshFactory env s) :
    Inv (scanAbandoned env s).state ∧
    FreshFactory env (scanAbandoned env s).state ∧
    (scanAbandoned env s).state.pool_size = s.pool_size ∧
    (scanAbandoned env s).state.pool = s.pool := by
  obtain ⟨hdisj, hnd, hsort, hlen⟩ := hinv
  cases hfind : s.borrowed.find? env.unique with
  | none =>
    simp only [scanAbandoned, hfind, ScanResult.state]
    exact ⟨⟨hdisj, hnd, hsort, hlen⟩, hf, by trivial, by trivial⟩
  | some a =>
    have ha : a ∈ s.borrowed := List.mem_of_find?_eq_some hfind
    have hapos : 0 < s.borrowed.length := List.length_pos_of_mem ha
    cases hcreate : env.create s.createCalls with
    | none =>
      simp only [scanAbandoned, hfind, hcreate, ScanResult.state]
      unfold Inv FreshFactory
      dsimp only
      refine ⟨⟨hdisj, hnd, hsort, hlen⟩, ⟨?_, hf.2⟩, by trivial, by trivial⟩
      intro k c hk hc
      exact hf.1 k c (by omega) hc
    | some c =>
      have hcfresh : c ∉ s.pool ∧ c ∉ s.borrowed :=
        hf.1 s.createCalls c (le_refl _) hcreate
      have hcerase : c ∉ s.borrowed.erase a :=
        fun hmem => hcfresh.2 (List.mem_of_mem_erase hmem)
      simp only [scanAbandoned, hfind, hcreate, ScanResult.state]
      unfold Inv FreshFactory
      dsimp only
      refine ⟨⟨?_, hnd, ?_, ?_⟩, ⟨?_, hf.2⟩, by trivial, by trivial⟩
      · intro x hx hmem
        rcases mem_insertSorted.mp hmem with rfl | hmem2
        · exact hcfresh.1 hx
        · exact hdisj x hx (List.mem_of_mem_erase hmem2)
      · exact pairwise_insertSorted
          (List.Pairwise.sublist (s.borrowed.erase_sublist a) hsort)
      · rw [length_insertSorted_of_not_mem hcerase, List.length_erase_of_mem ha]
        omega
      · intro k c2 hk hc2
        have hbase := hf.1 k c2 (by omega) hc2
        refine ⟨hbase.1, ?_⟩
        intro hmem
        rcases mem_insertSorted.mp hmem with heq | hmem2
        · exact hf.2 k s.createCalls c2 c hc2 hcreate (by omega) heq
        · exact hbase.2 (List.mem_of_mem_erase hmem2)

theorem pop_ok_inv {env : Env} {s : PoolState} {conn : Handle} {rest : List Handle}
    (hp : s.pool = conn :: rest) (hinv : Inv s) (hf : FreshFactory env s) :
    Inv { s with pool := rest, borrowed := insertSorted conn s.borrowed } ∧
    FreshFactory env { s with pool := rest, borrowed := insertSorted conn s.borrowed } := by
  obtain ⟨hdisj, hnd, hsort, hlen⟩ := hinv
  rw [hp] at hdisj hnd hlen
  have hconn : conn ∉ s.borrowed := hdisj conn (List.mem_cons_self _ _)
  have hcr : conn ∉ rest := (List.nodup_cons.mp hnd).1
  unfold Inv FreshFactory
  dsimp only
  refine ⟨⟨?_, (List.nodup_cons.mp hnd).2, pairwise_insertSorted hsort, ?_⟩, ?_, hf.2⟩
  · intro x hx hmem
    rcases mem_insertSorted.mp hmem with rfl | hmem2
    · exact hcr hx
    · exact hdisj x (List.mem_cons_of_mem _ hx) hmem2
  · rw [length_insertSorted_of_not_mem hconn]
    simp only [List.length_cons] at hlen
    omega
  · intro k c hk hc
    have hbase := hf.1 k c hk hc
    rw [hp] at hbase
    refine ⟨fun hm => hbase.1 (List.mem_cons_of_mem _ hm), ?_⟩
    intro hmem
    rcases mem_insertSorted.mp hmem with rfl | hmem2
    · exact hbase.1 (List.mem_cons_self _ _)
    · exact hbase.2 hmem2

theorem pop_fail_inv {env : Env} {s : PoolState} {conn : Handle} {rest : List Handle}
    (hp : s.pool = conn :: rest) (hinv : Inv s) (hf : FreshFactory env s) :
    Inv { s with pool := rest } ∧ FreshFactory env { s with pool := rest } := by
  obtain ⟨hdisj, hnd, hsort, hlen⟩ := hinv
  rw [hp] at hdisj hnd hlen
  unfold Inv FreshFactory
  dsimp only
  refine ⟨⟨?_, (List.nodup_cons.mp hnd).2, hsort, ?_⟩, ?_, hf.2⟩
  · intro x hx
    exact hdisj x (List.mem_cons_of_mem _ hx)
  · simp only [List.length_cons] at hlen
    omega
  · intro k c hk hc
    have hbase := hf.1 k c hk hc
    rw [hp] at hbase
    exact ⟨fun hm => hbase.1 (List.mem_cons_of_mem _ hm), hbase.2⟩

theorem borrowIter_inv {env : Env} {clock : Nat → Nat × Nat} {lock_usec k : Nat}
    {s : PoolState} (hinv : Inv s) (hf : FreshFactory env s) :
    Inv (borrowIter env clock lock_usec k s).state ∧
    FreshFactory env (borrowIter env clock lock_usec k s).state ∧
    (borrowIter env clock lock_usec k s).state.pool_size = s.pool_size := by
  cases hp : s.pool with
  | nil =>
    have hscan := scanAbandoned_inv hinv hf
    cases hsc : scanAbandoned env s with
    | found c s1 =>
      rw [hsc] at hscan
      simp only [ScanResult.state] at hscan
      simp only [borrowIter, hp, hsc, IterOut.state]
      exact ⟨hscan.1, hscan.2.1, hscan.2.2.1⟩
    | fallthrough s1 =>
      rw [hsc] at hscan
      simp only [ScanResult.state] at hscan
      simp only [borrowIter, hp, hsc]
      split
      · simp only [IterOut.state]
        exact ⟨hscan.1, hscan.2.1, hscan.2.2.1⟩
      · simp only [IterOut.state]
        exact ⟨hscan.1, hscan.2.1, hscan.2.2.1⟩
  | cons conn rest =>
    have hok := pop_ok_inv hp hinv hf
    have hfail := pop_fail_inv hp hinv hf
    simp only [borrowIter, hp]
    split
    · simp only [IterOut.state]
      exact ⟨hok.1, hok.2, by trivial⟩
    · split
      · simp only [IterOut.state]
        exact ⟨hok.1, hok.2, by trivial⟩
      · simp only [IterOut.state]
        exact ⟨hfail.1, hfail.2, by trivial⟩

theorem borrowLoop_inv {env : Env} {clock : Nat → Nat × Nat} {lock_usec : Nat} :
    ∀ (fuel k w : Nat) {s : PoolState}, Inv s → FreshFactory env s →
      Inv (borrowLoop env clock lock_usec fuel k w s).state ∧
      (borrowLoop env clock lock_usec fuel k w s).state.pool_size = s.pool_size := by
  intro fuel
  induction fuel with
  | zero => intro k w s hinv _; exact ⟨hinv, rfl⟩
  | succ n ih =>
    intro k w s hinv hf
    have hiter := @borrowIter_inv env clock lock_usec k s hinv hf
    simp only [borrowLoop]
    cases hit : borrowIter env clock lock_usec k s with
    | done r s1 waited =>
      rw [hit] at hiter
      simp only [IterOut.state] at hiter
      exact ⟨hiter.1, hiter.2.2⟩
    | again s1 waited =>
      rw [hit] at hiter
      simp only [IterOut.state] at hiter
      have hrec := ih (k + 2) (w + if waited then 1 else 0) hiter.1 hiter.2.1
      exact ⟨hrec.1, hrec.2.trans hiter.2.2⟩

theorem borrow_inv {env : Env} {clock : Nat → Nat × Nat} {fuel : Nat}
    {s : PoolState} (hinv : Inv s) (hf : FreshFactory env s) :
    Inv (borrow env clock fuel s).state ∧
    (borrow env clock fuel s).state.pool_size = s.pool_size :=
  borrowLoop_inv fuel 1 0 hinv hf

theorem unborrow_inv {s : PoolState} {h : Handle}
    (hmem : h ∈ s.borrowed) (hinv : Inv s) :
    Inv (unborrow s h) ∧ (unborrow s h).pool_size = s.pool_size := by
  obtain ⟨hdisj, hnd, hsort, hlen⟩ := hinv
  have hbnd : s.borrowed.Nodup := List.Pairwise.imp (fun hlt => Nat.ne_of_lt hlt) hsort
  have hhp : h ∉ s.pool := fun hin => hdisj h hin hmem
  have hbpos : 0 < s.borrowed.length := List.length_pos_of_mem hmem
  unfold Inv unborrow
  dsimp only
  refine ⟨⟨?_, ?_, List.Pairwise.sublist (s.borrowed.erase_sublist h) hsort, ?_⟩, rfl⟩
  · intro x hx hmem2
    rcases List.mem_append.mp hx with hx3 | hx3
    · exact hdisj x hx3 (List.mem_of_mem_erase hmem2)
    · rw [List.mem_singleton] at hx3
      subst hx3
      exact ((hbnd.mem_erase_iff).mp hmem2).1 rfl
  · rw [List.nodup_append]
    refine ⟨hnd, List.nodup_singleton h, ?_⟩
    intro x hx hx2
    rw [List.mem_singleton] at hx2
    subst hx2
    exact hhp hx
  · rw [List.length_append, List.length_erase_of_mem hmem]
    simp only [List.length_singleton]
    omega


inductive Step : PoolState → PoolState → Prop where
  | borrow (env : Env) (clock : Nat → Nat × Nat) (fuel : Nat) (s : PoolState)
      (hf : FreshFactory env s) : Step s (ConnectionPool.borrow env clock fuel s).state
  | unborrow (s : PoolState) (h : Handle) (hmem : h ∈ s.borrowed) :
      Step s (ConnectionPool.unborrow s h)

/-- States reachable by any sequence of pool operations. -/
def Reachable : PoolState → PoolState → Prop := Relation.ReflTransGen Step

theorem step_inv {s s1 : PoolState} (hstep : Step s s1) (hinv : Inv s) :
    Inv s1 ∧ s1.pool_size = s.pool_size := by
  cases hstep with
  | borrow env clock fuel s hf => exact borrow_inv hinv hf
  | unborrow s h hmem => exact unborrow_inv hmem hinv

theorem reachable_inv {s s1 : PoolState} (hr : Reachable s s1) (hinv : Inv s) :
    Inv s1 ∧ s1.pool_size = s.pool_size := by
  induction hr with
  | refl => exact ⟨hinv, rfl⟩
  | tail hab hbc ih =>
    have h1 := step_inv hbc ih.1
    exact ⟨h1.1, h1.2.trans ih.2⟩

theorem fillPool_sound {create : Nat → Option Handle} :
    ∀ (n k : Nat) {l : List Handle} {k2 : Nat},
      fillPool create k n = some (l, k2) →
      l.length = n ∧ k2 = k + n ∧
      ∀ c ∈ l, ∃ j, k ≤ j ∧ j < k + n ∧ create j = some c := by
  intro n
  induction n with
  | zero =>
    intro k l k2 h
    simp only [fillPool, Option.some.injEq, Prod.mk.injEq] at h
    obtain ⟨h1, h2⟩ := h
    subst h1
    subst h2
    exact ⟨rfl, by omega, by simp⟩
  | succ m ih =>
    intro k l k2 h
    simp only [fillPool] at h
    cases hc : create k with
    | none => rw [hc] at h; exact Option.noConfusion h
    | some c =>
      rw [hc] at h
      cases hrec : fillPool create (k + 1) m with
      | none => rw [hrec] at h; exact Option.noConfusion h
      | some p =>
        obtain ⟨l0, k3⟩ := p
        rw [hrec] at h
        simp only [Option.some.injEq, Prod.mk.injEq] at h
        obtain ⟨h1, h2⟩ := h
        subst h1
        subst h2
        obtain ⟨hlen, hk3, hmem⟩ := ih (k + 1) hrec
        refine ⟨by simp [hlen], by omega, ?_⟩
        intro x hx
        rcases List.mem_cons.mp hx with rfl | hx2
        · exact ⟨k, le_refl _, by omega, hc⟩
        · obtain ⟨j, hj1, hj2, hj3⟩ := hmem x hx2
          exact ⟨j, by omega, by omega, hj3⟩

theorem fillPool_nodup {create : Nat → Option Handle}
    (hpair : ∀ j k c c2, create j = some c → create k = some c2 → j ≠ k → c ≠ c2) :
    ∀ (n k : Nat) {l : List Handle} {k2 : Nat},
      fillPool create k n = some (l, k2) → l.Nodup := by
  intro n
  induction n with
  | zero =>
    intro k l k2 h
    simp only [fillPool, Option.some.injEq, Prod.mk.injEq] at h
    obtain ⟨h1, _⟩ := h
    subst h1
    exact List.nodup_nil
  | succ m ih =>
    intro k l k2 h
    simp only [fillPool] at h
    cases hc : create k with
    | none => rw [hc] at h; exact Option.noConfusion h
    | some c =>
      rw [hc] at h
      cases hrec : fillPool create (k + 1) m with
      | none => rw [hrec] at h; exact Option.noConfusion h
      | some p =>
        obtain ⟨l0, k3⟩ := p
        rw [hrec] at h
        simp only [Option.some.injEq, Prod.mk.injEq] at h
        obtain ⟨h1, _⟩ := h
        subst h1
        rw [List.nodup_cons]
        refine ⟨?_, ih (k + 1) hrec⟩
        intro hcmem
        obtain ⟨j, hj1, hj2, hj3⟩ := (fillPool_sound m (k + 1) hrec).2.2 c hcmem
        exact hpair j k c c hj3 hc (by omega) rfl

theorem fillPool_all_some {create : Nat → Option Handle} {g : Nat → Handle} :
    ∀ (n k : Nat), (∀ i, k ≤ i → i < k + n → create i = some (g i)) →
      fillPool create k n = some ((List.range' k n).map g, k + n) := by
  intro n
  induction n with
  | zero => intro k _; simp [fillPool, List.range']
  | succ m ih =>
    intro k hall
    have hk : create k = some (g k) := hall k (le_refl k) (by omega)
    have hrec := ih (k + 1) (fun i h1 h2 => hall i (by omega) (by omega))
    rw [(by omega : k + (m + 1) = k + 1 + m)]
    simp [fillPool, hk, hrec, List.range'_succ]

theorem fillPool_none_of_create_none {create : Nat → Option Handle} :
    ∀ (n k j : Nat), k ≤ j → j < k + n → create j = none →
      fillPool create k n = none := by
  intro n
  induction n with
  | zero => intro k j h1 h2 _; omega
  | succ m ih =>
    intro k j h1 h2 hj
    by_cases hk : j = k
    · subst hk
      simp [fillPool, hj]
    · have hrec := ih (k + 1) j (by omega) (by omega) hj
      cases hc : create k with
      | none => simp [fillPool, hc]
      | some c => simp [fillPool, hc, hrec]

theorem construct_inv {env : Env} {n t : Nat} {s0 : PoolState}
    (hpair : ∀ j k c c2, env.create j = some c → env.create k = some c2 → j ≠ k → c ≠ c2)
    (h0 : construct env n t = some s0) :
    Inv s0 ∧ s0.pool_size = n := by
  unfold construct at h0
  cases hfill : fillPool env.create 0 n with
  | none => rw [hfill] at h0; exact Option.noConfusion h0
  | some p =>
    obtain ⟨l, k⟩ := p
    rw [hfill] at h0
    simp only [Option.some.injEq] at h0
    subst h0
    have hsound := fillPool_sound n 0 hfill
    have hnd := fillPool_nodup hpair n 0 hfill
    unfold Inv
    dsimp only
    refine ⟨⟨?_, hnd, List.Pairwise.nil, ?_⟩, rfl⟩
    · intro x _ hmem
      exact absurd hmem (List.not_mem_nil x)
    · simp only [List.length_nil]
      omega

theorem borrow_pop {env : Env} {clock : Nat → Nat × Nat} {fuel : Nat}
    {s : PoolState} {c : Handle} {rest : List Handle} (hp : s.pool = c :: rest) :
    borrow env clock (fuel + 1) s =
      if env.isValid c then
        ⟨.conn c, { s with pool := rest, borrowed := insertSorted c s.borrowed }, 0⟩
      else if env.reconnect c then
        ⟨.conn c, { s with pool := rest, borrowed := insertSorted c s.borrowed }, 0⟩
      else ⟨.unavailable, { s with pool := rest }, 0⟩ := by
  by_cases hv : env.isValid c
  · simp [borrow, borrowLoop, borrowIter, hp, hv]
  · by_cases hr : env.reconnect c
    · simp [borrow, borrowLoop, borrowIter, hp, hv, hr]
    · simp [borrow, borrowLoop, borrowIter, hp, hv, hr]

/-- A concrete environment for witness instantiations: every connection is
valid, nothing is abandoned, the factory returns the handle equal to its
call index. -/
def envW : Env := ⟨fun _ => true, fun _ => true, fun _ => false, fun k => some k⟩

/-- A concrete clock for witness instantiations. -/
def clockW : Nat → Nat × Nat := fun _ => (0, 0)

/-- C1: when `free` is non-empty, `borrow` removes exactly the front
connection `c` of `free`; if `isValid()` is true, or `isValid()` is false
but `reconnect()` is true, `c` is inserted into `borrowed` and returned to
the caller; if both are false, `borrow` throws `ConnectionUnavailable`
immediately — for every clock, with no timed wait — and `c` is in neither
`free` nor `borrowed` afterwards. -/
theorem borrow_nonempty_front_cases (env : Env) (clock : Nat → Nat × Nat)
    (fuel : Nat) (s : PoolState) (c : Handle) (rest : List Handle)
    (hp : s.pool = c :: rest) (hcr : c ∉ rest) (hcb : c ∉ s.borrowed) :
    (env.isValid c = true →
       borrow env clock (fuel + 1) s =
         ⟨.conn c, { s with pool := rest, borrowed := insertSorted c s.borrowed }, 0⟩ ∧
       c ∈ insertSorted c s.borrowed)
  ∧ (env.isValid c = false → env.reconnect c = true →
       borrow env clock (fuel + 1) s =
         ⟨.conn c, { s with pool := rest, borrowed := insertSorted c s.borrowed }, 0⟩ ∧
       c ∈ insertSorted c s.borrowed)
  ∧ (env.isValid c = false → env.reconnect c = false →
       borrow env clock (fuel + 1) s = ⟨.unavailable, { s with pool := rest }, 0⟩ ∧
       c ∉ rest ∧ c ∉ s.borrowed) := by
  refine ⟨?_, ?_, ?_⟩
  · intro hv
    refine ⟨?_, mem_insertSorted.mpr (Or.inl rfl)⟩
    rw [borrow_pop hp, if_pos hv]
  · intro hv hr
    refine ⟨?_, mem_insertSorted.mpr (Or.inl rfl)⟩
    rw [borrow_pop hp, if_neg (by simp [hv]), if_pos hr]
  · intro hv hr
    refine ⟨?_, hcr, hcb⟩
    rw [borrow_pop hp, if_neg (by simp [hv]), if_neg (by simp [hr])]

def sW1 : PoolState :=
  { pool := [5], borrowed := [], pool_size := 1, timeout_sec := 0
    createCalls := 1, signals := 0 }

theorem borrow_nonempty_front_cases_witness :
    borrow envW clockW 1 sW1 =
      ⟨.conn 5, { sW1 with pool := [], borrowed := insertSorted 5 sW1.borrowed }, 0⟩ ∧
    5 ∈ insertSorted 5 sW1.borrowed :=
  (borrow_nonempty_front_cases envW clockW 0 sW1 5 [] rfl (by decide) (by decide)).1 rfl

/-- C6: for a handle `h` currently in `borrowed`, `unborrow` appends `h` to
the back of `free`, removes `h` from `borrowed`, and signals one waiter; a
subsequent `borrow` that finds the pool non-empty can receive `h` once it
reaches the front of `free` (here: immediately, when `free` was empty). -/
theorem unborrow_returns_to_back (env : Env) (s : PoolState) (h : Handle)
    (hmem : h ∈ s.borrowed) (hnd : s.borrowed.Nodup) :
    (unborrow s h).pool = s.pool ++ [h] ∧
    h ∉ (unborrow s h).borrowed ∧
    (unborrow s h).signals = s.signals + 1 ∧
    (s.pool = [] → env.isValid h = true → ∀ clock fuel,
      borrow env clock (fuel + 1) (unborrow s h) =
        ⟨.conn h,
         { (unborrow s h) with
           pool := [], borrowed := insertSorted h (unborrow s h).borrowed },
         0⟩) := by
  refine ⟨rfl, ?_, rfl, ?_⟩
  · have he : (unborrow s h).borrowed = s.borrowed.erase h := rfl
    rw [he]
    intro hmem2
    exact ((hnd.mem_erase_iff).mp hmem2).1 rfl
  · intro hpool hvalid clock fuel
    have hp2 : (unborrow s h).pool = h :: [] := by
      unfold unborrow
      dsimp only
      rw [hpool]
      rfl
    rw [borrow_pop hp2, if_pos hvalid]

def sW6 : PoolState :=
  { pool := [], borrowed := [7], pool_size := 1, timeout_sec := 3
    createCalls := 1, signals := 0 }

theorem unborrow_returns_to_back_witness :
    (unborrow sW6 7).pool = sW6.pool ++ [7] ∧
    7 ∉ (unborrow sW6 7).borrowed ∧
    (unborrow sW6 7).signals = sW6.signals + 1 ∧
    (sW6.pool = [] → envW.isValid 7 = true → ∀ clock fuel,
      borrow envW clock (fuel + 1) (unborrow sW6 7) =
        ⟨.conn 7,
         { (unborrow sW6 7) with
           pool := [], borrowed := insertSorted 7 (unborrow sW6 7).borrowed },
         0⟩) :=
  unborrow_returns_to_back envW sW6 7 (by decide) (by decide)

/-- C8: the absolute deadline computed at the top of `borrow` is exact
integer arithmetic: `lock_usec = (now.tv_sec + timeout_sec)*1000000 +
now.tv_usec` equals the entry time in microseconds plus
`timeout_sec * 1000000`, and the whole loop compares current-time
microsecond readings against this single deadline. -/
theorem deadline_arithmetic_exact (sec usec timeout_sec : Nat) (env : Env)
    (clock : Nat → Nat × Nat) (fuel : Nat) (s : PoolState) :
    deadlineUsec (sec, usec) timeout_sec
      = usecOf (sec, usec) + timeout_sec * 1000000 ∧
    borrow env clock fuel s =
      borrowLoop env clock (usecOf (clock 0) + s.timeout_sec * 1000000) fuel 1 0 s := by
  constructor
  · unfold deadlineUsec usecOf
    ring
  · have hd : deadlineUsec (clock 0) s.timeout_sec
        = usecOf (clock 0) + s.timeout_sec * 1000000 := by
      unfold deadlineUsec usecOf
      ring
    unfold borrow
    rw [hd]

/-- C9: no pool operation writes the `retry_cnt` field: the snapshot
returned by `get_stats` has `pool_size`, `borrowed_size` and `timeout_sec`
copied from the pool state, while `retry_cnt` is exactly the indeterminate
(unassigned) value, whatever it happens to be. -/
theorem retry_cnt_never_written (s : PoolState) (u : Int) :
    (get_stats s u).pool_size = s.pool.length ∧
    (get_stats s u).borrowed_size = s.borrowed.length ∧
    (get_stats s u).timeout_sec = s.timeout_sec ∧
    (get_stats s u).retry_cnt = u :=
  ⟨rfl, rfl, rfl, rfl⟩

/-- C10: `unborrow` validates nothing: for any handle, including one not in
`borrowed`, it unconditionally appends the handle to the back of `free` and
performs a possibly-no-op erase from `borrowed`; calling it twice with the
same handle leaves two entries in `free`, and two subsequent `borrow` calls
can each be handed that same connection. -/
theorem unborrow_no_validation (env : Env) (s : PoolState) (h : Handle) :
    (unborrow s h).pool = s.pool ++ [h] ∧
    (unborrow s h).borrowed = s.borrowed.erase h ∧
    (unborrow (unborrow s h) h).pool.count h = s.pool.count h + 2 ∧
    (s.pool = [] → env.isValid h = true → ∀ clock fuel,
      ∃ s2, borrow env clock (fuel + 1) (unborrow (unborrow s h) h) =
              ⟨.conn h, s2, 0⟩ ∧
        ∃ s3, borrow env clock (fuel + 1) s2 = ⟨.conn h, s3, 0⟩) := by
  refine ⟨rfl, rfl, ?_, ?_⟩
  · have he : (unborrow (unborrow s h) h).pool = (s.pool ++ [h]) ++ [h] := rfl
    rw [he, List.append_assoc]
    simp only [List.count_append, List.count_singleton, List.singleton_append,
      List.count_cons_self, List.count_nil]
  · intro hpool hvalid clock fuel
    have hp2 : (unborrow (unborrow s h) h).pool = h :: [h] := by
      unfold unborrow
      dsimp only
      rw [hpool]
      rfl
    refine ⟨{ (unborrow (unborrow s h) h) with
              pool := [h],
              borrowed := insertSorted h (unborrow (unborrow s h) h).borrowed },
            ?_, ?_⟩
    · rw [borrow_pop hp2, if_pos hvalid]
    · exact ⟨_, by rw [borrow_pop (rfl : _ = h :: ([] : List Handle)), if_pos hvalid]⟩

def sW10 : PoolState :=
  { pool := [], borrowed := [], pool_size := 1, timeout_sec := 0
    createCalls := 1, signals := 0 }

theorem unborrow_no_validation_witness :
    (unborrow sW10 4).pool = sW10.pool ++ [4] ∧
    (unborrow sW10 4).borrowed = sW10.borrowed.erase 4 ∧
    (unborrow (unborrow sW10 4) 4).pool.count 4 = sW10.pool.count 4 + 2 ∧
    (sW10.pool = [] → envW.isValid 4 = true → ∀ clock fuel,
      ∃ s2, borrow envW clock (fuel + 1) (unborrow (unborrow sW10 4) 4) =
              ⟨.conn 4, s2, 0⟩ ∧
        ∃ s3, borrow envW clock (fuel + 1) s2 = ⟨.conn 4, s3, 0⟩) :=
  unborrow_no_validation envW sW10 4

/-- C3: when `free` is empty and `a` is the first entry of `borrowed` (in
iteration order) whose only remaining owner is the pool's bookkeeping
reference, a successful `factory.create()` makes `borrow` remove `a` from
`borrowed`, insert the replacement `c`, and return `c` to the caller, with
`borrowed.size()` unchanged by the replacement and the abandoned entry no
longer tracked. -/
theorem borrow_abandoned_replacement (env : Env) (clock : Nat → Nat × Nat)
    (fuel : Nat) (s : PoolState) (a c : Handle)
    (hp : s.pool = [])
    (hfind : s.borrowed.find? env.unique = some a)
    (hcreate : env.create s.createCalls = some c)
    (hcb : c ∉ s.borrowed) (hnd : s.borrowed.Nodup) :
    borrow env clock (fuel + 1) s =
      ⟨.conn c,
       { s with borrowed := insertSorted c (s.borrowed.erase a),
                createCalls := s.createCalls + 1 },
       0⟩ ∧
    a ∉ insertSorted c (s.borrowed.erase a) ∧
    c ∈ insertSorted c (s.borrowed.erase a) ∧
    (insertSorted c (s.borrowed.erase a)).length = s.borrowed.length := by
  have ha : a ∈ s.borrowed := List.mem_of_find?_eq_some hfind
  have hscan : scanAbandoned env s =
      .found c { s with borrowed := insertSorted c (s.borrowed.erase a),
                        createCalls := s.createCalls + 1 } := by
    unfold scanAbandoned
    rw [hfind, hcreate]
  refine ⟨?_, ?_, mem_insertSorted.mpr (Or.inl rfl), ?_⟩
  · simp [borrow, borrowLoop, borrowIter, hp, hscan]
  · intro hmem
    rcases mem_insertSorted.mp hmem with heq | hmem2
    · exact hcb (heq ▸ ha)
    · exact ((hnd.mem_erase_iff).mp hmem2).1 rfl
  · rw [length_insertSorted_of_not_mem (fun hm => hcb (List.mem_of_mem_erase hm)),
      List.length_erase_of_mem ha]
    have := List.length_pos_of_mem ha
    omega

def envW3 : Env := ⟨fun _ => true, fun _ => true, fun _ => true, fun k => some (k + 9)⟩

def sW3 : PoolState :=
  { pool := [], borrowed := [7], pool_size := 1, timeout_sec := 2
    createCalls := 1, signals := 0 }

theorem borrow_abandoned_replacement_witness :
    borrow envW3 clockW 1 sW3 =
      ⟨.conn 10,
       { sW3 with borrowed := insertSorted 10 (sW3.borrowed.erase 7),
                  createCalls := sW3.createCalls + 1 },
       0⟩ ∧
    7 ∉ insertSorted 10 (sW3.borrowed.erase 7) ∧
    10 ∈ insertSorted 10 (sW3.borrowed.erase 7) ∧
    (insertSorted 10 (sW3.borrowed.erase 7)).length = sW3.borrowed.length :=
  borrow_abandoned_replacement envW3 clockW 0 sW3 7 10 rfl (by decide) (by decide)
    (by decide) (by decide)

/-- C4: a factory failure during abandoned-connection replacement is not
propagated to the caller: the scan falls through with `free` and `borrowed`
exactly as they were, and the loop proceeds to the deadline check / timed
wait (when the deadline has not yet passed at the pre-wait check, the
iteration performs the timed wait and either loops or exits by deadline). -/
theorem create_failure_not_propagated (env : Env) (s : PoolState) (a : Handle)
    (hp : s.pool = [])
    (hfind : s.borrowed.find? env.unique = some a)
    (hcreate : env.create s.createCalls = none) :
    (∃ s1, scanAbandoned env s = .fallthrough s1 ∧
       s1.pool = s.pool ∧ s1.borrowed = s.borrowed) ∧
    (∀ clock lock_usec k, usecOf (clock k) < lock_usec →
       ∃ s1, (borrowIter env clock lock_usec k s = .again s1 true ∨
              borrowIter env clock lock_usec k s = .done .unavailable s1 true) ∧
         s1.pool = s.pool ∧ s1.borrowed = s.borrowed) := by
  have hscan : scanAbandoned env s =
      .fallthrough { s with createCalls := s.createCalls + 1 } := by
    unfold scanAbandoned
    rw [hfind, hcreate]
  refine ⟨⟨_, hscan, rfl, rfl⟩, ?_⟩
  intro clock lock_usec k hlt
  refine ⟨{ s with createCalls := s.createCalls + 1 }, ?_, rfl, rfl⟩
  simp only [borrowIter, hp, hscan]
  by_cases h2 : usecOf (clock (k + 1)) < lock_usec
  · left
    simp [h2, hlt]
  · right
    simp [h2, hlt]

def envW4 : Env := ⟨fun _ => true, fun _ => true, fun _ => true, fun _ => none⟩

def sW4 : PoolState :=
  { pool := [], borrowed := [3], pool_size := 1, timeout_sec := 6
    createCalls := 0, signals := 0 }

theorem create_failure_not_propagated_witness :
    (∃ s1, scanAbandoned envW4 sW4 = .fallthrough s1 ∧
       s1.pool = sW4.pool ∧ s1.borrowed = sW4.borrowed) ∧
    (∀ clock lock_usec k, usecOf (clock k) < lock_usec →
       ∃ s1, (borrowIter envW4 clock lock_usec k sW4 = .again s1 true ∨
              borrowIter envW4 clock lock_usec k sW4 = .done .unavailable s1 true) ∧
         s1.pool = sW4.pool ∧ s1.borrowed = sW4.borrowed) :=
  create_failure_not_propagated envW4 sW4 3 rfl (by decide) rfl

/-- C5: with `timeout_sec = 0`, `free` empty, and no recoverable abandoned
entry, `borrow` throws `ConnectionUnavailable` immediately: the loop body
runs exactly once (the result is the same for every fuel bound) and zero
timed waits are performed, for every monotone clock. -/
theorem borrow_timeout_zero_fails_immediately (env : Env)
    (clock : Nat → Nat × Nat) (s : PoolState) (s1 : PoolState)
    (ht : s.timeout_sec = 0) (hp : s.pool = [])
    (hscan : scanAbandoned env s = .fallthrough s1)
    (hmono : ∀ k, usecOf (clock 0) ≤ usecOf (clock k)) :
    ∀ fuel, borrow env clock (fuel + 1) s = ⟨.unavailable, s1, 0⟩ := by
  intro fuel
  have h1 : ¬ usecOf (clock 1) < usecOf (clock 0) := Nat.not_lt.mpr (hmono 1)
  have h2 : ¬ usecOf (clock 2) < usecOf (clock 0) := Nat.not_lt.mpr (hmono 2)
  have hL : deadlineUsec (clock 0) s.timeout_sec = usecOf (clock 0) := by
    rw [ht]
    unfold deadlineUsec usecOf
    ring
  simp only [borrow, hL, borrowLoop, borrowIter, hp, hscan]
  simp [h1, h2]

def envW5 : Env := ⟨fun _ => true, fun _ => true, fun _ => false, fun _ => none⟩

def sW5 : PoolState :=
  { pool := [], borrowed := [2], pool_size := 1, timeout_sec := 0
    createCalls := 1, signals := 0 }

theorem borrow_timeout_zero_fails_immediately_witness :
    borrow envW5 clockW 1 sW5 = ⟨.unavailable, sW5, 0⟩ :=
  borrow_timeout_zero_fails_immediately envW5 clockW sW5 sW5 rfl rfl rfl
    (fun _ => le_refl _) 0

/-- C7: construction calls `factory.create()` exactly `n` times, placing
each result in `free` in creation order: with an always-succeeding factory,
`construct` returns a pool whose stats report `n` free and `0` borrowed
connections and whose factory-call count is exactly `n`; if any `create`
call fails, construction fails and no pool object is returned. -/
theorem construct_fills_pool (env : Env) (g : Nat → Handle) (n t : Nat) (u : Int) :
    ((∀ k, k < n → env.create k = some (g k)) →
       ∃ s0, construct env n t = some s0 ∧
         s0.pool = (List.range' 0 n).map g ∧
         s0.createCalls = n ∧
         (get_stats s0 u).pool_size = n ∧
         (get_stats s0 u).borrowed_size = 0) ∧
    ((∃ j, j < n ∧ env.create j = none) → construct env n t = none) := by
  constructor
  · intro hall
    have hfill := @fillPool_all_some env.create g n 0
      (fun i _ h2 => hall i (by omega))
    have hcon : construct env n t =
        some { pool := (List.range' 0 n).map g, borrowed := [], pool_size := n
               timeout_sec := t, createCalls := 0 + n, signals := 0 } := by
      unfold construct
      rw [hfill]
    refine ⟨_, hcon, rfl, by dsimp only; omega, ?_, rfl⟩
    show ((List.range' 0 n).map g).length = n
    rw [List.length_map, List.length_range']
  · intro hex
    obtain ⟨j, hj, hnone⟩ := hex
    unfold construct
    rw [fillPool_none_of_create_none n 0 j (by omega) (by omega) hnone]

theorem construct_fills_pool_witness :
    ∃ s0, construct envW 2 5 = some s0 ∧
      s0.pool = (List.range' 0 2).map (fun k => k) ∧
      s0.createCalls = 2 ∧
      (get_stats s0 (-7)).pool_size = 2 ∧
      (get_stats s0 (-7)).borrowed_size = 0 :=
  (construct_fills_pool envW (fun k => k) 2 5 (-7)).1 (by decide)

/-- C2: from a freshly constructed pool of capacity `n`, along any sequence
of borrow operations and contract-respecting unborrow operations, `free`
and `borrowed` remain disjoint, `free.size() + borrowed.size()` never
exceeds `n`, and in particular `borrowed.size()` never exceeds `n`. -/
theorem pool_invariants_reachable (env : Env) (n t : Nat) (s0 s : PoolState)
    (hpair : ∀ j k c c2, env.create j = some c → env.create k = some c2 →
       j ≠ k → c ≠ c2)
    (h0 : construct env n t = some s0)
    (hr : Reachable s0 s) :
    (∀ x ∈ s.pool, x ∉ s.borrowed) ∧
    s.pool.length + s.borrowed.length ≤ n ∧
    s.borrowed.length ≤ n := by
  obtain ⟨hinv0, hps0⟩ := construct_inv hpair h0
  obtain ⟨hinv, hps⟩ := reachable_inv hr hinv0
  obtain ⟨hdisj, _, _, hlen⟩ := hinv
  rw [hps, hps0] at hlen
  exact ⟨hdisj, hlen, by omega⟩

def sW2 : PoolState :=
  { pool := [0, 1], borrowed := [], pool_size := 2, timeout_sec := 0
    createCalls := 2, signals := 0 }

theorem pool_invariants_reachable_witness :
    (∀ x ∈ sW2.pool, x ∉ sW2.borrowed) ∧
    sW2.pool.length + sW2.borrowed.length ≤ 2 ∧
    sW2.borrowed.length ≤ 2 := by
  refine pool_invariants_reachable envW 2 0 sW2 sW2 ?_ (by decide)
    Relation.ReflTransGen.refl
  intro j k c c2 h1 h2 hjk
  simp only [envW, Option.some.injEq] at h1 h2
  subst h1
  subst h2
  exact hjk

end ConnectionPool
